import Mathlib

/-!
Shallow embedding of `export_albums.py`, a one-shot batch exporter that
copies the photos of a photo library into per-album folders.

The filesystem is modelled explicitly: a list of file paths that exist plus a
list of directories that exist.  The external collaborators of the script are
modelled as follows:

* `os.path.join` is `joinPath` (POSIX join semantics, the script runs on macOS);
* `pathlib.Path(s).name` is `baseName`;
* `str.replace(" ", "_")` is `replaceSpaces`;
* `pathvalidate.sanitize_filepath` and `pathvalidate.is_valid_filepath` are
  opaque parameters `sanitize : String → String` and `valid : String → Bool`
  of the development, since they belong to an external library;
* Python's `re.compile(pat).match(s)` (anchored at the start, may match a
  proper prefix) is `pyMatch` over Mathlib's `RegularExpression`;
* `osxphotos` supplies read-only photo metadata (`Photo`) and the per-album
  photo list (`photosOf : String → List Photo`); its `PhotoInfo.export`
  operation is modelled, following the spec of the collaborator, as writing
  the variant into the destination directory under the filename the script
  derived for it (`p.filename` for the original, the base name of
  `p.path_edited` for the edited variant).
-/

/-- `os.path.join` for two components, POSIX semantics: an absolute second
component wins; otherwise a single separator is inserted unless the first
component is empty or already ends with one. -/
def joinPath (a b : String) : String :=
  if b.data.head? = some '/' then b
  else if a = "" ∨ a.data.getLast? = some '/' then a ++ b
  else a ++ "/" ++ b

/-- Split a character list on `'/'`. -/
def splitOnSlash : List Char → List (List Char)
  | [] => [[]]
  | c :: cs =>
    match splitOnSlash cs with
    | [] => if c = '/' then [[], []] else [[c]]
    | x :: xs => if c = '/' then [] :: x :: xs else (c :: x) :: xs

/-- `pathlib.Path(s).name`: the last non-empty path component. -/
def baseName (s : String) : String :=
  String.mk (((splitOnSlash s.data).filter (fun t => t ≠ [])).getLastD [])

/-- `album_name.replace(" ", "_")`: every space becomes an underscore. -/
def replaceSpaces (s : String) : String :=
  String.mk (s.data.map (fun c => if c = ' ' then '_' else c))

/-- The metadata of one photo, as read from the library collaborator.
A `path_edited` of `""` models Python's falsy `None`/empty edited path. -/
structure Photo where
  filename : String
  original_filename : String
  path : String
  path_edited : String
  ismissing : Bool
  hasadjustments : Bool
  deriving DecidableEq

/-- The seven per-album counters initialised at lines 72–79 of the script. -/
structure Counters where
  copied : Nat
  errors : Nat
  existing : Nat
  missing : Nat
  copied_edited : Nat
  errors_edited : Nat
  existing_edited : Nat
  deriving DecidableEq

/-- All counters start at zero. -/
def Counters.zero : Counters := ⟨0, 0, 0, 0, 0, 0, 0⟩

/-- Destination path of the original variant: `os.path.join(dest_dir, p.filename)`. -/
def destOrig (dest : String) (p : Photo) : String := joinPath dest p.filename

/-- Destination path of the edited variant:
`os.path.join(dest_dir, pathlib.Path(p.path_edited).name)`. -/
def destEdit (dest : String) (p : Photo) : String := joinPath dest (baseName p.path_edited)

/-- The guard `p.hasadjustments and p.path_edited` of line 86 (`""` is falsy). -/
def editedApplies (p : Photo) : Bool := p.hasadjustments && !(p.path_edited == "")

/-- Lines 86–97: the edited-variant branch.  Checks destination existence,
then source existence, else copies (the copy adds the destination file). -/
def stepEdited (dest : String) (p : Photo) (c : Counters) (fs : List String) :
    Counters × List String :=
  if editedApplies p then
    if destEdit dest p ∈ fs then
      ({c with existing_edited := c.existing_edited + 1}, fs)
    else if p.path_edited ∉ fs then
      ({c with errors_edited := c.errors_edited + 1}, fs)
    else
      ({c with copied_edited := c.copied_edited + 1}, fs ++ [destEdit dest p])
  else (c, fs)

/-- Lines 99–108: the original-variant branch, same three-way logic. -/
def stepOrig (dest : String) (p : Photo) (c : Counters) (fs : List String) :
    Counters × List String :=
  if destOrig dest p ∈ fs then
    ({c with existing := c.existing + 1}, fs)
  else if p.path ∉ fs then
    ({c with errors := c.errors + 1}, fs)
  else
    ({c with copied := c.copied + 1}, fs ++ [destOrig dest p])

/-- Lines 83–111: one photo.  A missing photo only bumps the missing counter;
otherwise the edited branch runs first, then the original branch. -/
def stepPhoto (dest : String) (p : Photo) (st : Counters × List String) :
    Counters × List String :=
  if p.ismissing then ({st.1 with missing := st.1.missing + 1}, st.2)
  else
    let m := stepEdited dest p st.1 st.2
    stepOrig dest p m.1 m.2

/-- The photo loop of lines 82–111 over one album's photo list. -/
def runPhotos (dest : String) : List Photo → Counters × List String → Counters × List String
  | [], st => st
  | p :: ps, st => runPhotos dest ps (stepPhoto dest p st)

/-- Line 58–59: sanitize the album name, then replace spaces by underscores. -/
def sanitizeAlbum (sanitize : String → String) (a : String) : String :=
  replaceSpaces (sanitize a)

/-- Line 62: the destination directory of an album. -/
def destDirOf (sanitize : String → String) (root a : String) : String :=
  joinPath root (sanitizeAlbum sanitize a)

/-- Python's `re.match`: the regular expression must match at the start of the
string, but may consume only a prefix.  Implemented by trying every prefix
with Mathlib's decidable `rmatch`. -/
def pyMatch (r : RegularExpression Char) (s : List Char) : Bool :=
  (List.range (s.length + 1)).any (fun n => r.rmatch (s.take n))

/-- The descending order on album names used by `sorted(..., reverse=True)`:
lexicographic comparison of the character lists (Python compares strings by
code point, which is exactly the lexicographic order on `String.data`). -/
def albumGE (a b : String) : Prop := b.data ≤ a.data

instance : DecidableRel albumGE := fun a b => (inferInstance : Decidable (b.data ≤ a.data))

/-- Lines 46 and 52–53: albums sorted in reverse lexical order, then filtered
by `include_filter_regex.match`.  Since equal sort keys are identical strings,
every sort that produces a descending permutation yields this same list, so
insertion sort models Python's `sorted(..., reverse=True)` exactly. -/
def processedAlbums (r : RegularExpression Char) (albums : List String) : List String :=
  (albums.insertionSort albumGE).filter (fun a => pyMatch r a.data)

/-- The filesystem: the set of files that exist and the set of directories
that exist, as lists of paths. -/
structure FS where
  files : List String
  dirs : List String
  deriving DecidableEq

/-- Lines 54–111 for one album that passed validation: create the destination
directory if absent (line 69–70), then run the photo loop. -/
def albumStep (sanitize : String → String) (photosOf : String → List Photo)
    (root a : String) (fs : FS) : Counters × FS :=
  let dest := destDirOf sanitize root a
  let dirs' := if dest ∈ fs.dirs then fs.dirs else fs.dirs ++ [dest]
  let r := runPhotos dest (photosOf a) (Counters.zero, fs.files)
  (r.1, ⟨r.2, dirs'⟩)

/-- The album loop of lines 52–114.  The first component is `some msg` when
the script called `sys.exit(msg)` on an invalid destination path (line 65–66),
in which case nothing later runs; the second component is the list of per-album
summaries echoed at lines 113–114; the third is the final filesystem. -/
def runAlbums (valid : String → Bool) (sanitize : String → String)
    (photosOf : String → List Photo) (root : String) :
    List String → FS → Option String × List (String × Counters) × FS
  | [], fs => (none, [], fs)
  | a :: as, fs =>
    let dest := destDirOf sanitize root a
    if valid dest = false then (some ("Invalid filepath " ++ dest), [], fs)
    else
      let st := albumStep sanitize photosOf root a fs
      let r := runAlbums valid sanitize photosOf root as st.2
      (r.1, (a, st.1) :: r.2.1, r.2.2)

/-- The whole `export` command (after the library has been opened): sort and
filter the albums, then run the album loop. -/
def runExport (valid : String → Bool) (sanitize : String → String)
    (photosOf : String → List Photo) (r : RegularExpression Char)
    (root : String) (albums : List String) (fs : FS) :
    Option String × List (String × Counters) × FS :=
  runAlbums valid sanitize photosOf root (processedAlbums r albums) fs

/-- All destination filenames an album's photo loop can ever write. -/
def destNames (dest : String) (ps : List Photo) : List String :=
  ps.map (destOrig dest) ++ ps.map (destEdit dest)

/-- All destination filenames the whole export over the given album list can
ever write: the destination names of every album's photos. -/
def allDestNames (sanitize : String → String) (photosOf : String → List Photo)
    (root : String) (as : List String) : List String :=
  as.bind (fun a => destNames (destDirOf sanitize root a) (photosOf a))

example : joinPath "a" "b" = "a/b" := by decide
example : joinPath "a/" "b" = "a/b" := by decide
example : joinPath "" "b" = "b" := by decide
example : joinPath "a" "/b" = "/b" := by decide
example : baseName "a/b.jpg" = "b.jpg" := by decide
example : baseName "" = "" := by decide
example : baseName "/x/y/z.heic" = "z.heic" := by decide
example : replaceSpaces "My Trip 2020" = "My_Trip_2020" := by decide
example : pyMatch (RegularExpression.char 'T') "Trip".data = true := by decide
example : pyMatch (RegularExpression.char 'T') "Vacation".data = false := by decide
example : processedAlbums (RegularExpression.char 'T') ["Alpha", "Trip", "Tango"] = ["Trip", "Tango"] := by decide

/-! ### Case lemmas for the per-photo step -/

theorem stepEdited_not_applies {dest : String} {p : Photo} {c : Counters} {fs : List String}
    (h : editedApplies p = false) : stepEdited dest p c fs = (c, fs) := by
  simp [stepEdited, h]

theorem stepEdited_existing {dest : String} {p : Photo} {c : Counters} {fs : List String}
    (h : editedApplies p = true) (h1 : destEdit dest p ∈ fs) :
    stepEdited dest p c fs = ({c with existing_edited := c.existing_edited + 1}, fs) := by
  simp [stepEdited, h, h1]

theorem stepEdited_errors {dest : String} {p : Photo} {c : Counters} {fs : List String}
    (h : editedApplies p = true) (h1 : destEdit dest p ∉ fs) (h2 : p.path_edited ∉ fs) :
    stepEdited dest p c fs = ({c with errors_edited := c.errors_edited + 1}, fs) := by
  simp [stepEdited, h, h1, h2]

theorem stepEdited_copied {dest : String} {p : Photo} {c : Counters} {fs : List String}
    (h : editedApplies p = true) (h1 : destEdit dest p ∉ fs) (h2 : p.path_edited ∈ fs) :
    stepEdited dest p c fs =
      ({c with copied_edited := c.copied_edited + 1}, fs ++ [destEdit dest p]) := by
  simp [stepEdited, h, h1, h2]

theorem stepOrig_existing {dest : String} {p : Photo} {c : Counters} {fs : List String}
    (h1 : destOrig dest p ∈ fs) :
    stepOrig dest p c fs = ({c with existing := c.existing + 1}, fs) := by
  simp [stepOrig, h1]

theorem stepOrig_errors {dest : String} {p : Photo} {c : Counters} {fs : List String}
    (h1 : destOrig dest p ∉ fs) (h2 : p.path ∉ fs) :
    stepOrig dest p c fs = ({c with errors := c.errors + 1}, fs) := by
  simp [stepOrig, h1, h2]

theorem stepOrig_copied {dest : String} {p : Photo} {c : Counters} {fs : List String}
    (h1 : destOrig dest p ∉ fs) (h2 : p.path ∈ fs) :
    stepOrig dest p c fs = ({c with copied := c.copied + 1}, fs ++ [destOrig dest p]) := by
  simp [stepOrig, h1, h2]

theorem stepPhoto_missing {dest : String} {p : Photo} {c : Counters} {fs : List String}
    (h : p.ismissing = true) :
    stepPhoto dest p (c, fs) = ({c with missing := c.missing + 1}, fs) := by
  simp [stepPhoto, h]

theorem stepPhoto_not_missing {dest : String} {p : Photo} {c : Counters} {fs : List String}
    (h : p.ismissing = false) :
    stepPhoto dest p (c, fs) =
      stepOrig dest p (stepEdited dest p c fs).1 (stepEdited dest p c fs).2 := by
  simp [stepPhoto, h]

/-! ### Counter bookkeeping for the photo loop -/

/-- The three original-variant outcome counters, summed. -/
def origSum (c : Counters) : Nat := c.copied + c.existing + c.errors

/-- The three edited-variant outcome counters, summed. -/
def editSum (c : Counters) : Nat := c.copied_edited + c.existing_edited + c.errors_edited

theorem stepPhoto_counts (dest : String) (p : Photo) (c : Counters) (fs : List String) :
    origSum (stepPhoto dest p (c, fs)).1 + (stepPhoto dest p (c, fs)).1.missing
        = origSum c + c.missing + 1 ∧
    editSum (stepPhoto dest p (c, fs)).1
        = editSum c + (if !p.ismissing && editedApplies p then 1 else 0) := by
  by_cases hm : p.ismissing = true
  · rw [stepPhoto_missing hm]; simp [origSum, editSum, hm]; omega
  · rw [Bool.not_eq_true] at hm
    rw [stepPhoto_not_missing hm]
    have hedit : editSum (stepEdited dest p c fs).1
          = editSum c + (if editedApplies p then 1 else 0) ∧
        origSum (stepEdited dest p c fs).1 = origSum c ∧
        (stepEdited dest p c fs).1.missing = c.missing := by
      by_cases he : editedApplies p = true
      · by_cases h1 : destEdit dest p ∈ fs
        · rw [stepEdited_existing he h1]; simp [origSum, editSum, he]; omega
        · by_cases h2 : p.path_edited ∈ fs
          · rw [stepEdited_copied he h1 h2]; simp [origSum, editSum, he]; omega
          · rw [stepEdited_errors he h1 h2]; simp [origSum, editSum, he]; omega
      · rw [Bool.not_eq_true] at he
        rw [stepEdited_not_applies he]; simp [origSum, editSum, he]
    set d := (stepEdited dest p c fs).1 with hd
    set gs := (stepEdited dest p c fs).2 with hgs
    have horig : origSum (stepOrig dest p d gs).1 = origSum d + 1 ∧
        editSum (stepOrig dest p d gs).1 = editSum d ∧
        (stepOrig dest p d gs).1.missing = d.missing := by
      by_cases h1 : destOrig dest p ∈ gs
      · rw [stepOrig_existing h1]; simp [origSum, editSum]; omega
      · by_cases h2 : p.path ∈ gs
        · rw [stepOrig_copied h1 h2]; simp [origSum, editSum]; omega
        · rw [stepOrig_errors h1 h2]; simp [origSum, editSum]; omega
    obtain ⟨he1, he2, he3⟩ := hedit
    obtain ⟨ho1, ho2, ho3⟩ := horig
    simp only [hm, Bool.not_false, Bool.true_and]
    omega

theorem runPhotos_counts (dest : String) (ps : List Photo) (c : Counters) (fs : List String) :
    origSum (runPhotos dest ps (c, fs)).1 + (runPhotos dest ps (c, fs)).1.missing
        = origSum c + c.missing + ps.length ∧
    editSum (runPhotos dest ps (c, fs)).1
        = editSum c + ps.countP (fun p => !p.ismissing && editedApplies p) := by
  induction ps generalizing c fs with
  | nil => simp [runPhotos]
  | cons p ps ih =>
    have hstep := stepPhoto_counts dest p c fs
    have hrec := ih (stepPhoto dest p (c, fs)).1 (stepPhoto dest p (c, fs)).2
    rw [show runPhotos dest (p :: ps) (c, fs) = runPhotos dest ps (stepPhoto dest p (c, fs))
        from rfl]
    rw [List.countP_cons]
    rcases Bool.eq_false_or_eq_true (!p.ismissing && editedApplies p) with hp | hp <;>
      simp [hp] at hstep hrec ⊢ <;> omega

/-- Claim C9: after processing an album, each photo accounted for exactly one of
the four original-variant counters, so copied + existing + errors + missing is
the number of photos in the album, and copied-edited + existing-edited +
errors-edited is the number of non-missing photos with adjustments and a
non-empty edited path. -/
theorem album_counter_invariant (dest : String) (ps : List Photo) (fs : List String) :
    (runPhotos dest ps (Counters.zero, fs)).1.copied
        + (runPhotos dest ps (Counters.zero, fs)).1.existing
        + (runPhotos dest ps (Counters.zero, fs)).1.errors
        + (runPhotos dest ps (Counters.zero, fs)).1.missing = ps.length ∧
    (runPhotos dest ps (Counters.zero, fs)).1.copied_edited
        + (runPhotos dest ps (Counters.zero, fs)).1.existing_edited
        + (runPhotos dest ps (Counters.zero, fs)).1.errors_edited
      = ps.countP (fun p => !p.ismissing && p.hasadjustments && !(p.path_edited == "")) := by
  have h := runPhotos_counts dest ps Counters.zero fs
  obtain ⟨h1, h2⟩ := h
  simp only [origSum, editSum,
    show Counters.zero.copied = 0 from rfl, show Counters.zero.existing = 0 from rfl,
    show Counters.zero.errors = 0 from rfl, show Counters.zero.missing = 0 from rfl,
    show Counters.zero.copied_edited = 0 from rfl,
    show Counters.zero.existing_edited = 0 from rfl,
    show Counters.zero.errors_edited = 0 from rfl] at h1 h2
  have hcount : ps.countP (fun p => !p.ismissing && editedApplies p)
      = ps.countP (fun p => !p.ismissing && p.hasadjustments && !(p.path_edited == "")) := by
    apply List.countP_congr
    intro p _
    simp [editedApplies, Bool.and_assoc]
  constructor
  · omega
  · omega

/-- Claim C6: a photo whose missing flag is set has neither variant evaluated —
the filesystem is untouched and the resulting counters are exactly the old
counters with the missing counter incremented. -/
theorem missing_photo_skipped (dest : String) (p : Photo) (c : Counters) (fs : List String)
    (h : p.ismissing = true) :
    stepPhoto dest p (c, fs) = ({c with missing := c.missing + 1}, fs) :=
  stepPhoto_missing h

/-- Witness for `missing_photo_skipped` at a concrete photo. -/
theorem missing_photo_skipped_witness :
    stepPhoto "/out/Trip" ⟨"f.jpg", "f.jpg", "/lib/f.jpg", "", true, false⟩
        (Counters.zero, ["/lib/f.jpg"])
      = ({Counters.zero with missing := 1}, ["/lib/f.jpg"]) :=
  missing_photo_skipped "/out/Trip" ⟨"f.jpg", "f.jpg", "/lib/f.jpg", "", true, false⟩
    Counters.zero ["/lib/f.jpg"] rfl

/-! ### Which files can a step add, and monotonicity -/

theorem stepEdited_fs_shape (dest : String) (p : Photo) (c : Counters) (fs : List String) :
    (stepEdited dest p c fs).2 = fs ∨ (stepEdited dest p c fs).2 = fs ++ [destEdit dest p] := by
  unfold stepEdited
  split
  · split
    · exact Or.inl rfl
    · split
      · exact Or.inl rfl
      · exact Or.inr rfl
  · exact Or.inl rfl

theorem stepOrig_fs_shape (dest : String) (p : Photo) (c : Counters) (fs : List String) :
    (stepOrig dest p c fs).2 = fs ∨ (stepOrig dest p c fs).2 = fs ++ [destOrig dest p] := by
  unfold stepOrig
  split
  · exact Or.inl rfl
  · split
    · exact Or.inl rfl
    · exact Or.inr rfl

theorem stepEdited_fs_mono {dest : String} {p : Photo} {c : Counters} {fs : List String} :
    fs ⊆ (stepEdited dest p c fs).2 := by
  rcases stepEdited_fs_shape dest p c fs with h | h <;> rw [h]
  · exact fun x hx => hx
  · exact fun x hx => List.mem_append_left _ hx

theorem stepOrig_fs_mono {dest : String} {p : Photo} {c : Counters} {fs : List String} :
    fs ⊆ (stepOrig dest p c fs).2 := by
  rcases stepOrig_fs_shape dest p c fs with h | h <;> rw [h]
  · exact fun x hx => hx
  · exact fun x hx => List.mem_append_left _ hx

theorem stepPhoto_fs_mono {dest : String} {p : Photo} {c : Counters} {fs : List String} :
    fs ⊆ (stepPhoto dest p (c, fs)).2 := by
  by_cases hm : p.ismissing = true
  · rw [stepPhoto_missing hm]
    exact fun x hx => hx
  · rw [Bool.not_eq_true] at hm
    rw [stepPhoto_not_missing hm]
    exact fun x hx => stepOrig_fs_mono (stepEdited_fs_mono hx)

theorem stepPhoto_fs_new {dest : String} {p : Photo} {c : Counters} {fs : List String} :
    ∀ x ∈ (stepPhoto dest p (c, fs)).2,
      x ∈ fs ∨ x = destEdit dest p ∨ x = destOrig dest p := by
  intro x hx
  by_cases hm : p.ismissing = true
  · rw [stepPhoto_missing hm] at hx; exact Or.inl hx
  · rw [Bool.not_eq_true] at hm
    rw [stepPhoto_not_missing hm] at hx
    rcases stepOrig_fs_shape dest p (stepEdited dest p c fs).1 (stepEdited dest p c fs).2
        with h | h <;> rw [h] at hx
    · rcases stepEdited_fs_shape dest p c fs with h' | h' <;> rw [h'] at hx
      · exact Or.inl hx
      · rcases List.mem_append.1 hx with h'' | h''
        · exact Or.inl h''
        · exact Or.inr (Or.inl (List.mem_singleton.1 h''))
    · rcases List.mem_append.1 hx with h'' | h''
      · rcases stepEdited_fs_shape dest p c fs with h' | h' <;> rw [h'] at h''
        · exact Or.inl h''
        · rcases List.mem_append.1 h'' with h3 | h3
          · exact Or.inl h3
          · exact Or.inr (Or.inl (List.mem_singleton.1 h3))
      · exact Or.inr (Or.inr (List.mem_singleton.1 h''))

theorem runPhotos_fs_mono {dest : String} {ps : List Photo} {c : Counters} {fs : List String} :
    fs ⊆ (runPhotos dest ps (c, fs)).2 := by
  induction ps generalizing c fs with
  | nil => exact fun x hx => hx
  | cons p ps ih =>
    rw [show runPhotos dest (p :: ps) (c, fs) = runPhotos dest ps (stepPhoto dest p (c, fs))
        from rfl]
    intro x hx
    have h1 : x ∈ (stepPhoto dest p (c, fs)).2 := stepPhoto_fs_mono hx
    exact ih h1

theorem runPhotos_fs_new {dest : String} {ps : List Photo} {c : Counters} {fs : List String} :
    ∀ x ∈ (runPhotos dest ps (c, fs)).2,
      x ∈ fs ∨ ∃ p ∈ ps, x = destEdit dest p ∨ x = destOrig dest p := by
  induction ps generalizing c fs with
  | nil => exact fun x hx => Or.inl hx
  | cons p ps ih =>
    intro x hx
    rw [show runPhotos dest (p :: ps) (c, fs) = runPhotos dest ps (stepPhoto dest p (c, fs))
        from rfl] at hx
    rcases ih x hx with h | ⟨q, hq, hqx⟩
    · rcases stepPhoto_fs_new x h with h' | h'
      · exact Or.inl h'
      · exact Or.inr ⟨p, List.mem_cons_self p ps, h'⟩
    · exact Or.inr ⟨q, List.mem_cons_of_mem p hq, hqx⟩

theorem stepOrig_preserves (dest : String) (p : Photo) (c : Counters) (fs : List String) :
    (stepOrig dest p c fs).1.missing = c.missing ∧
    (stepOrig dest p c fs).1.copied_edited = c.copied_edited ∧
    (stepOrig dest p c fs).1.errors_edited = c.errors_edited ∧
    (stepOrig dest p c fs).1.existing_edited = c.existing_edited := by
  unfold stepOrig
  split
  · simp
  · split <;> simp

theorem stepEdited_preserves (dest : String) (p : Photo) (c : Counters) (fs : List String) :
    (stepEdited dest p c fs).1.missing = c.missing ∧
    (stepEdited dest p c fs).1.copied = c.copied ∧
    (stepEdited dest p c fs).1.errors = c.errors ∧
    (stepEdited dest p c fs).1.existing = c.existing := by
  unfold stepEdited
  split
  · split
    · simp
    · split <;> simp
  · simp

/-- Claim C7: for a non-missing photo, the edited branch runs exactly when the
photo has adjustments and a non-empty edited path, in which case exactly one
edited counter is bumped and the only file it can add is named after the base
name of the edited path; the original branch always runs independently, bumps
exactly one original counter, and the only file it can add is named after the
photo's stored filename.  Without adjustments (or with an empty edited path)
the edited counters are untouched. -/
theorem variant_evaluation (dest : String) (p : Photo) (c : Counters) (fs : List String)
    (h : p.ismissing = false) :
    (editedApplies p = false →
        stepPhoto dest p (c, fs) = stepOrig dest p c fs ∧
        (stepPhoto dest p (c, fs)).1.copied_edited = c.copied_edited ∧
        (stepPhoto dest p (c, fs)).1.errors_edited = c.errors_edited ∧
        (stepPhoto dest p (c, fs)).1.existing_edited = c.existing_edited ∧
        (∀ x ∈ (stepPhoto dest p (c, fs)).2, x ∈ fs ∨ x = joinPath dest p.filename)) ∧
    (editedApplies p = true →
        stepPhoto dest p (c, fs)
          = stepOrig dest p (stepEdited dest p c fs).1 (stepEdited dest p c fs).2 ∧
        editSum (stepEdited dest p c fs).1 = editSum c + 1 ∧
        (∀ x ∈ (stepEdited dest p c fs).2,
            x ∈ fs ∨ x = joinPath dest (baseName p.path_edited)) ∧
        (∀ x ∈ (stepPhoto dest p (c, fs)).2,
            x ∈ fs ∨ x = joinPath dest (baseName p.path_edited)
              ∨ x = joinPath dest p.filename)) ∧
    origSum (stepPhoto dest p (c, fs)).1 = origSum c + 1 := by
  have hrw := @stepPhoto_not_missing dest p c fs h
  refine ⟨?_, ?_, ?_⟩
  · intro he
    rw [hrw, stepEdited_not_applies he]
    refine ⟨rfl, ?_, ?_, ?_, ?_⟩
    · exact (stepOrig_preserves dest p c fs).2.1
    · exact (stepOrig_preserves dest p c fs).2.2.1
    · exact (stepOrig_preserves dest p c fs).2.2.2
    · intro x hx
      rcases stepOrig_fs_shape dest p c fs with hs | hs <;> rw [hs] at hx
      · exact Or.inl hx
      · rcases List.mem_append.1 hx with h' | h'
        · exact Or.inl h'
        · exact Or.inr (List.mem_singleton.1 h')
  · intro he
    refine ⟨hrw, ?_, ?_, ?_⟩
    · by_cases h1 : destEdit dest p ∈ fs
      · rw [stepEdited_existing he h1]; simp [editSum]; omega
      · by_cases h2 : p.path_edited ∈ fs
        · rw [stepEdited_copied he h1 h2]; simp [editSum]; omega
        · rw [stepEdited_errors he h1 h2]; simp [editSum]; omega
    · intro x hx
      rcases stepEdited_fs_shape dest p c fs with hs | hs <;> rw [hs] at hx
      · exact Or.inl hx
      · rcases List.mem_append.1 hx with h' | h'
        · exact Or.inl h'
        · exact Or.inr (List.mem_singleton.1 h')
    · exact fun x hx => stepPhoto_fs_new x hx
  · have hc := stepPhoto_counts dest p c fs
    have hm1 : (stepPhoto dest p (c, fs)).1.missing = c.missing := by
      rw [hrw]
      rw [(stepOrig_preserves dest p (stepEdited dest p c fs).1 (stepEdited dest p c fs).2).1]
      exact (stepEdited_preserves dest p c fs).1
    omega

/-- Witness for `variant_evaluation`: a concrete non-missing photo with
adjustments bumps exactly one original counter. -/
theorem variant_evaluation_witness :
    origSum (stepPhoto "/out/T" ⟨"x.jpg", "x.jpg", "/lib/x.jpg", "/lib/ed/xe.jpg", false, true⟩
        (Counters.zero, [])).1 = origSum Counters.zero + 1 :=
  (variant_evaluation "/out/T" ⟨"x.jpg", "x.jpg", "/lib/x.jpg", "/lib/ed/xe.jpg", false, true⟩
    Counters.zero [] rfl).2.2

/-- Counterexample to claim C1 as stated: a photo whose recorded path
`/lib/x.jpg` does not exist on disk but whose missing flag is set is counted
in the missing counter, not the errors counter; and a non-missing photo whose
recorded path does not exist but whose destination file is already present is
counted in the existing counter, not the errors counter. -/
theorem source_gone_claim_counterexample :
    ((stepPhoto "/out/T" ⟨"x.jpg", "x.jpg", "/lib/x.jpg", "", true, false⟩
          (Counters.zero, [])).1.errors = 0 ∧
      (stepPhoto "/out/T" ⟨"x.jpg", "x.jpg", "/lib/x.jpg", "", true, false⟩
          (Counters.zero, [])).1.missing = 1 ∧
      "/lib/x.jpg" ∉ ([] : List String)) ∧
    ((stepPhoto "/out/T" ⟨"y.jpg", "y.jpg", "/lib/y.jpg", "", false, false⟩
          (Counters.zero, ["/out/T/y.jpg"])).1.errors = 0 ∧
      (stepPhoto "/out/T" ⟨"y.jpg", "y.jpg", "/lib/y.jpg", "", false, false⟩
          (Counters.zero, ["/out/T/y.jpg"])).1.existing = 1 ∧
      "/lib/y.jpg" ∉ ["/out/T/y.jpg"]) := by
  decide

/-- Claim C1 (amended): for a NON-MISSING photo, if at the moment the original
variant is checked its destination file is absent and its recorded path is
absent, the errors counter is incremented and no copy happens (the filesystem
is exactly what the edited branch left); likewise, when the edited branch
applies and both the edited destination file and the recorded edited path are
absent, the errors-edited counter is incremented and the edited branch copies
nothing. -/
theorem source_gone_counts_error (dest : String) (p : Photo) (c : Counters) (fs : List String)
    (hm : p.ismissing = false)
    (h1 : destOrig dest p ∉ (stepEdited dest p c fs).2)
    (h2 : p.path ∉ (stepEdited dest p c fs).2) :
    (stepPhoto dest p (c, fs)).1.errors = c.errors + 1 ∧
    (stepPhoto dest p (c, fs)).1.copied = c.copied ∧
    (stepPhoto dest p (c, fs)).2 = (stepEdited dest p c fs).2 ∧
    (editedApplies p = true → destEdit dest p ∉ fs → p.path_edited ∉ fs →
      (stepPhoto dest p (c, fs)).1.errors_edited = c.errors_edited + 1 ∧
      (stepPhoto dest p (c, fs)).1.copied_edited = c.copied_edited ∧
      (stepPhoto dest p (c, fs)).2 = fs) := by
  have hrw := @stepPhoto_not_missing dest p c fs hm
  have horig := stepOrig_errors (c := (stepEdited dest p c fs).1) h1 h2
  have hpres := stepEdited_preserves dest p c fs
  refine ⟨?_, ?_, ?_, ?_⟩
  · rw [hrw, horig]
    simp [hpres.2.2.1]
  · rw [hrw, horig]
    simp [hpres.2.1]
  · rw [hrw, horig]
  · intro he hde hpe
    have hed := stepEdited_errors (c := c) he hde hpe
    refine ⟨?_, ?_, ?_⟩
    · rw [hrw, horig, hed]
    · rw [hrw, horig, hed]
    · rw [hrw, horig, hed]

/-- Witness for `source_gone_counts_error` at a concrete photo with no
adjustments and an absent source file. -/
theorem source_gone_counts_error_witness :
    (stepPhoto "/out/T" ⟨"z.jpg", "z.jpg", "/lib/z.jpg", "", false, false⟩
        (Counters.zero, [])).1.errors = Counters.zero.errors + 1 :=
  (source_gone_counts_error "/out/T" ⟨"z.jpg", "z.jpg", "/lib/z.jpg", "", false, false⟩
    Counters.zero [] rfl (by decide) (by decide)).1

/-- Claim C10: the album-name-to-directory mapping is not injective — two
distinct album names differing only by a space versus an underscore (both left
unchanged by the sanitizer, as `pathvalidate` leaves such names unchanged)
resolve to the same destination directory. -/
theorem album_dir_not_injective (sanitize : String → String) (root : String)
    (h1 : sanitize "My Trip" = "My Trip") (h2 : sanitize "My_Trip" = "My_Trip") :
    ("My Trip" : String) ≠ "My_Trip" ∧
    destDirOf sanitize root "My Trip" = destDirOf sanitize root "My_Trip" := by
  constructor
  · decide
  · have h3 : replaceSpaces "My Trip" = replaceSpaces "My_Trip" := by decide
    unfold destDirOf sanitizeAlbum
    rw [h1, h2, h3]

/-- Witness for `album_dir_not_injective` with the identity sanitizer. -/
theorem album_dir_not_injective_witness :
    ("My Trip" : String) ≠ "My_Trip" ∧
    destDirOf id "/out" "My Trip" = destDirOf id "/out" "My_Trip" :=
  album_dir_not_injective id "/out" rfl rfl

/-- Claim C8: the destination directory of an album is the export root joined
with the sanitized, space-to-underscore-transformed album name; processing the
album puts that directory into the filesystem, creating it exactly when it was
absent and leaving the directory set untouched when it was already present. -/
theorem album_dir_resolution (sanitize : String → String) (photosOf : String → List Photo)
    (root a : String) (fs : FS) :
    destDirOf sanitize root a = joinPath root (replaceSpaces (sanitize a)) ∧
    destDirOf sanitize root a ∈ (albumStep sanitize photosOf root a fs).2.dirs ∧
    (destDirOf sanitize root a ∈ fs.dirs →
      (albumStep sanitize photosOf root a fs).2.dirs = fs.dirs) ∧
    (destDirOf sanitize root a ∉ fs.dirs →
      (albumStep sanitize photosOf root a fs).2.dirs
        = fs.dirs ++ [destDirOf sanitize root a]) := by
  refine ⟨rfl, ?_, ?_, ?_⟩
  · by_cases h : destDirOf sanitize root a ∈ fs.dirs <;> simp [albumStep, h]
  · intro h; simp [albumStep, h]
  · intro h; simp [albumStep, h]

/-- Witness for `album_dir_resolution`: with an empty filesystem the
destination directory gets created. -/
theorem album_dir_resolution_witness :
    (albumStep id (fun _ => []) "/out" "My Trip" ⟨[], []⟩).2.dirs
      = [] ++ [destDirOf id "/out" "My Trip"] :=
  (album_dir_resolution id (fun _ => []) "/out" "My Trip" ⟨[], []⟩).2.2.2 (by decide)

/-- Claim C5: if every album processed before `a` has a valid destination path
and `a`'s destination path is invalid, the run terminates at `a` with the
error message naming the invalid path; the summaries and the filesystem are
exactly those produced by the albums before `a` — no file of `a` is copied and
no later album is processed. -/
theorem invalid_path_aborts (valid : String → Bool) (sanitize : String → String)
    (photosOf : String → List Photo) (root : String) (pre post : List String) (a : String)
    (fs : FS)
    (hpre : ∀ b ∈ pre, valid (destDirOf sanitize root b) = true)
    (ha : valid (destDirOf sanitize root a) = false) :
    runAlbums valid sanitize photosOf root (pre ++ a :: post) fs
      = (some ("Invalid filepath " ++ destDirOf sanitize root a),
          (runAlbums valid sanitize photosOf root pre fs).2.1,
          (runAlbums valid sanitize photosOf root pre fs).2.2) := by
  induction pre generalizing fs with
  | nil => simp [runAlbums, ha]
  | cons b bs ih =>
    have hb : valid (destDirOf sanitize root b) = true := hpre b (List.mem_cons_self b bs)
    have hrest : ∀ x ∈ bs, valid (destDirOf sanitize root x) = true :=
      fun x hx => hpre x (List.mem_cons_of_mem b hx)
    rw [List.cons_append]
    simp only [runAlbums, hb]
    rw [ih _ hrest]
    simp

/-- Witness for `invalid_path_aborts`: a concrete run where the second album's
destination is invalid stops with the error message and keeps only the first
album's effects. -/
theorem invalid_path_aborts_witness :
    runAlbums (fun s => !(s == "/out/Bad")) id (fun _ => []) "/out"
        (["Good"] ++ "Bad" :: ["Tail"]) ⟨[], []⟩
      = (some ("Invalid filepath " ++ destDirOf id "/out" "Bad"),
          (runAlbums (fun s => !(s == "/out/Bad")) id (fun _ => []) "/out" ["Good"] ⟨[], []⟩).2.1,
          (runAlbums (fun s => !(s == "/out/Bad")) id (fun _ => []) "/out" ["Good"] ⟨[], []⟩).2.2) :=
  invalid_path_aborts (fun s => !(s == "/out/Bad")) id (fun _ => []) "/out"
    ["Good"] ["Tail"] "Bad" ⟨[], []⟩ (by decide) (by decide)

/-! ### Album selection and visiting order -/

instance : IsTotal String albumGE :=
  ⟨fun a b => by unfold albumGE; exact le_total b.data a.data⟩

instance : IsTrans String albumGE :=
  ⟨fun a b c hab hbc => by
    unfold albumGE at *
    exact le_trans hbc hab⟩

/-- Python `re.match` semantics: `pyMatch` succeeds exactly when some prefix of
the input belongs to the language of the regular expression. -/
theorem pyMatch_iff (r : RegularExpression Char) (s : List Char) :
    pyMatch r s = true ↔ ∃ u v : List Char, s = u ++ v ∧ u ∈ r.matches' := by
  unfold pyMatch
  rw [List.any_eq_true]
  constructor
  · rintro ⟨n, hn, hm⟩
    exact ⟨s.take n, s.drop n, (List.take_append_drop n s).symm,
      (RegularExpression.rmatch_iff_matches' r (s.take n)).1 hm⟩
  · rintro ⟨u, v, rfl, hu⟩
    refine ⟨u.length, ?_, ?_⟩
    · rw [List.mem_range, List.length_append]
      omega
    · rw [List.take_left]
      exact (RegularExpression.rmatch_iff_matches' r u).2 hu

theorem runAlbums_dirs (valid : String → Bool) (sanitize : String → String)
    (photosOf : String → List Photo) (root : String) (as : List String) (fs : FS)
    (hv : ∀ a ∈ as, valid (destDirOf sanitize root a) = true) :
    ∀ d, d ∈ (runAlbums valid sanitize photosOf root as fs).2.2.dirs ↔
      d ∈ fs.dirs ∨ ∃ a ∈ as, d = destDirOf sanitize root a := by
  induction as generalizing fs with
  | nil => simp [runAlbums]
  | cons b bs ih =>
    have hb : valid (destDirOf sanitize root b) = true := hv b (List.mem_cons_self b bs)
    have hrest : ∀ x ∈ bs, valid (destDirOf sanitize root x) = true :=
      fun x hx => hv x (List.mem_cons_of_mem b hx)
    intro d
    simp only [runAlbums, hb]
    rw [if_neg (by simp)]
    rw [ih _ hrest]
    have hdirs : (albumStep sanitize photosOf root b fs).2.dirs
        = if destDirOf sanitize root b ∈ fs.dirs then fs.dirs
          else fs.dirs ++ [destDirOf sanitize root b] := rfl
    rw [hdirs]
    by_cases hmem : destDirOf sanitize root b ∈ fs.dirs
    · rw [if_pos hmem]
      simp only [List.mem_cons, exists_eq_or_imp]
      constructor
      · rintro (h | h)
        · exact Or.inl h
        · exact Or.inr (Or.inr h)
      · rintro (h | h | h)
        · exact Or.inl h
        · exact Or.inl (by rw [h]; exact hmem)
        · exact Or.inr h
    · rw [if_neg hmem]
      simp only [List.mem_append, List.mem_singleton, List.mem_cons, exists_eq_or_imp]
      tauto

/-- Claim C3: an album is selected for processing iff the include-filter
regular expression matches its name from the start (a prefix of the name is in
the expression's language); and when all selected albums have valid paths, the
directories existing after the run are exactly the old ones plus the
destination directories of the selected albums — none is created for a
non-matching album. -/
theorem album_selection (valid : String → Bool) (sanitize : String → String)
    (photosOf : String → List Photo) (r : RegularExpression Char) (root : String)
    (albums : List String) (fs : FS)
    (hv : ∀ a ∈ processedAlbums r albums, valid (destDirOf sanitize root a) = true) :
    (∀ a, a ∈ processedAlbums r albums ↔
        a ∈ albums ∧ ∃ u v : List Char, a.data = u ++ v ∧ u ∈ r.matches') ∧
    (∀ d, d ∈ (runExport valid sanitize photosOf r root albums fs).2.2.dirs ↔
        d ∈ fs.dirs ∨ ∃ a ∈ processedAlbums r albums, d = destDirOf sanitize root a) := by
  constructor
  · intro a
    unfold processedAlbums
    rw [List.mem_filter, List.mem_insertionSort, ← pyMatch_iff]
  · exact runAlbums_dirs valid sanitize photosOf root (processedAlbums r albums) fs hv

/-- Witness for `album_selection`: the album "Trip" is selected by the filter
`T` while "Vacation" is not, and only `/out/Trip` is created. -/
theorem album_selection_witness :
    "Trip" ∈ processedAlbums (RegularExpression.char 'T') ["Vacation", "Trip"] ↔
      "Trip" ∈ ["Vacation", "Trip"] ∧
        ∃ u v : List Char, "Trip".data = u ++ v ∧ u ∈ (RegularExpression.char 'T').matches' :=
  (album_selection (fun _ => true) id (fun _ => []) (RegularExpression.char 'T') "/out"
    ["Vacation", "Trip"] ⟨[], []⟩ (fun _ _ => rfl)).1 "Trip"

/-- Claim C4: with pairwise-distinct album names, the albums are visited in
strictly descending lexical order: any album processed earlier is strictly
greater than any album processed later. -/
theorem albums_visited_descending (r : RegularExpression Char) (albums : List String)
    (h : albums.Nodup) :
    (processedAlbums r albums).Pairwise (fun a b : String => b < a) := by
  have hsorted : (albums.insertionSort albumGE).Pairwise albumGE :=
    List.sorted_insertionSort albumGE albums
  have hnodup : (albums.insertionSort albumGE).Nodup :=
    (List.perm_insertionSort albumGE albums).nodup_iff.mpr h
  have hpair : (albums.insertionSort albumGE).Pairwise (fun a b : String => b < a) := by
    refine (hsorted.and hnodup).imp ?_
    rintro a b ⟨hge, hne⟩
    unfold albumGE at hge
    rw [String.lt_iff_toList_lt]
    exact lt_of_le_of_ne hge (fun hdata => hne (String.toList_inj.mp hdata).symm)
  exact hpair.filter _

/-- Witness for `albums_visited_descending` at a concrete album list. -/
theorem albums_visited_descending_witness :
    (processedAlbums (RegularExpression.char 'T') ["Vacation", "Trip", "Tango"]).Pairwise
      (fun a b : String => b < a) :=
  albums_visited_descending (RegularExpression.char 'T') ["Vacation", "Trip", "Tango"]
    (by decide)

/-! ### Running the export twice: the second run copies nothing -/

theorem step_fs_pres {dest : String} {p : Photo} {c : Counters} {fs : List String} {x : String}
    (h1 : x ≠ destEdit dest p) (h2 : x ≠ destOrig dest p) :
    x ∈ (stepPhoto dest p (c, fs)).2 ↔ x ∈ fs := by
  constructor
  · intro hx
    rcases stepPhoto_fs_new x hx with h | h | h
    · exact h
    · exact absurd h h1
    · exact absurd h h2
  · exact fun hx => stepPhoto_fs_mono hx

theorem stepEdited_twice (dest : String) (p : Photo) (c1 c2 : Counters)
    (fs1 fs2 : List String)
    (hfs : fs1 ⊆ fs2)
    (hsE : p.path_edited ∈ fs2 ↔ p.path_edited ∈ fs1)
    (hsub : (stepEdited dest p c1 fs1).2 ⊆ fs2) :
    (stepEdited dest p c2 fs2).1.copied_edited = c2.copied_edited ∧
    c2.existing_edited + (stepEdited dest p c1 fs1).1.copied_edited
        + (stepEdited dest p c1 fs1).1.existing_edited
      ≤ (stepEdited dest p c2 fs2).1.existing_edited + c1.copied_edited + c1.existing_edited ∧
    (stepEdited dest p c2 fs2).2 = fs2 ∧
    ((stepEdited dest p c1 fs1).2 = fs1
      ∨ (stepEdited dest p c1 fs1).2 = fs1 ++ [destEdit dest p]) := by
  by_cases he : editedApplies p = true
  · by_cases hde2 : destEdit dest p ∈ fs2
    · rw [stepEdited_existing (c := c2) he hde2]
      by_cases hde1 : destEdit dest p ∈ fs1
      · rw [stepEdited_existing (c := c1) he hde1]
        exact ⟨rfl, by simp <;> omega, rfl, Or.inl rfl⟩
      · by_cases hpe1 : p.path_edited ∈ fs1
        · rw [stepEdited_copied (c := c1) he hde1 hpe1]
          exact ⟨rfl, by simp <;> omega, rfl, Or.inr rfl⟩
        · rw [stepEdited_errors (c := c1) he hde1 hpe1]
          exact ⟨rfl, by simp <;> omega, rfl, Or.inl rfl⟩
    · have hde1 : destEdit dest p ∉ fs1 := fun h => hde2 (hfs h)
      have hpe1 : p.path_edited ∉ fs1 := by
        intro h
        apply hde2
        apply hsub
        rw [stepEdited_copied (c := c1) he hde1 h]
        exact List.mem_append_right _ (List.mem_singleton_self _)
      have hpe2 : p.path_edited ∉ fs2 := fun h => hpe1 (hsE.mp h)
      rw [stepEdited_errors (c := c2) he hde2 hpe2, stepEdited_errors (c := c1) he hde1 hpe1]
      exact ⟨rfl, by simp, rfl, Or.inl rfl⟩
  · rw [Bool.not_eq_true] at he
    rw [stepEdited_not_applies (c := c1) he, stepEdited_not_applies (c := c2) he]
    exact ⟨rfl, le_refl _, rfl, Or.inl rfl⟩

theorem stepOrig_twice (dest : String) (p : Photo) (d1 d2 : Counters)
    (g1 fs1 fs2 : List String)
    (hg1 : g1 = fs1 ∨ g1 = fs1 ++ [destEdit dest p])
    (hsO : p.path ∈ fs2 ↔ p.path ∈ fs1)
    (hsub : (stepOrig dest p d1 g1).2 ⊆ fs2) :
    (stepOrig dest p d2 fs2).1.copied = d2.copied ∧
    d2.existing + (stepOrig dest p d1 g1).1.copied + (stepOrig dest p d1 g1).1.existing
      ≤ (stepOrig dest p d2 fs2).1.existing + d1.copied + d1.existing := by
  by_cases hdo2 : destOrig dest p ∈ fs2
  · rw [stepOrig_existing (c := d2) hdo2]
    by_cases hdo1 : destOrig dest p ∈ g1
    · rw [stepOrig_existing (c := d1) hdo1]
      exact ⟨rfl, by simp <;> omega⟩
    · by_cases hp1 : p.path ∈ g1
      · rw [stepOrig_copied (c := d1) hdo1 hp1]
        exact ⟨rfl, by simp <;> omega⟩
      · rw [stepOrig_errors (c := d1) hdo1 hp1]
        exact ⟨rfl, by simp <;> omega⟩
  · have hdo1 : destOrig dest p ∉ g1 := fun h => hdo2 (hsub (stepOrig_fs_mono h))
    have hp1 : p.path ∉ g1 := by
      intro h
      apply hdo2
      apply hsub
      rw [stepOrig_copied (c := d1) hdo1 h]
      exact List.mem_append_right _ (List.mem_singleton_self _)
    have hp2 : p.path ∉ fs2 := by
      intro h
      apply hp1
      have hin1 : p.path ∈ fs1 := hsO.mp h
      rcases hg1 with hg | hg <;> rw [hg]
      · exact hin1
      · exact List.mem_append_left _ hin1
    rw [stepOrig_errors (c := d2) hdo2 hp2, stepOrig_errors (c := d1) hdo1 hp1]
    exact ⟨rfl, by simp⟩

theorem step_twice (dest : String) (p : Photo) (c1 c2 : Counters) (fs1 fs2 : List String)
    (hfs : fs1 ⊆ fs2)
    (hstep1 : (stepPhoto dest p (c1, fs1)).2 ⊆ fs2)
    (hsO : p.path ∈ fs2 ↔ p.path ∈ fs1)
    (hsE : p.path_edited ∈ fs2 ↔ p.path_edited ∈ fs1) :
    (stepPhoto dest p (c2, fs2)).1.copied = c2.copied ∧
    (stepPhoto dest p (c2, fs2)).1.copied_edited = c2.copied_edited ∧
    c2.existing + (stepPhoto dest p (c1, fs1)).1.copied
        + (stepPhoto dest p (c1, fs1)).1.existing
      ≤ (stepPhoto dest p (c2, fs2)).1.existing + c1.copied + c1.existing ∧
    c2.existing_edited + (stepPhoto dest p (c1, fs1)).1.copied_edited
        + (stepPhoto dest p (c1, fs1)).1.existing_edited
      ≤ (stepPhoto dest p (c2, fs2)).1.existing_edited + c1.copied_edited
          + c1.existing_edited := by
  by_cases hm : p.ismissing = true
  · rw [stepPhoto_missing (c := c1) hm, stepPhoto_missing (c := c2) hm]
    exact ⟨rfl, rfl, le_refl _, le_refl _⟩
  · rw [Bool.not_eq_true] at hm
    rw [stepPhoto_not_missing (c := c1) hm, stepPhoto_not_missing (c := c2) hm]
    rw [stepPhoto_not_missing (c := c1) hm] at hstep1
    have hsub1 : (stepEdited dest p c1 fs1).2 ⊆ fs2 :=
      fun x hx => hstep1 (stepOrig_fs_mono hx)
    obtain ⟨hE1, hE2, hE3, hE4⟩ := stepEdited_twice dest p c1 c2 fs1 fs2 hfs hsE hsub1
    obtain ⟨hO1, hO2⟩ := stepOrig_twice dest p (stepEdited dest p c1 fs1).1
      (stepEdited dest p c2 fs2).1 (stepEdited dest p c1 fs1).2 fs1 fs2 hE4 hsO hstep1
    have hpres1 := stepEdited_preserves dest p c1 fs1
    have hpres2 := stepEdited_preserves dest p c2 fs2
    have hopres1 := stepOrig_preserves dest p (stepEdited dest p c1 fs1).1
      (stepEdited dest p c1 fs1).2
    have hopres2 := stepOrig_preserves dest p (stepEdited dest p c2 fs2).1
      (stepEdited dest p c2 fs2).2
    rw [hE3]
    refine ⟨?_, ?_, ?_, ?_⟩
    · rw [hO1, hpres2.2.1]
    · rw [hE3] at hopres2
      rw [hopres2.2.1, hE1]
    · have e1 : (stepEdited dest p c1 fs1).1.copied = c1.copied := hpres1.2.1
      have e2 : (stepEdited dest p c1 fs1).1.existing = c1.existing := hpres1.2.2.2
      have e3 : (stepEdited dest p c2 fs2).1.existing = c2.existing := hpres2.2.2.2
      omega
    · rw [hE3] at hopres2
      have e1 : (stepOrig dest p (stepEdited dest p c1 fs1).1
            (stepEdited dest p c1 fs1).2).1.copied_edited
          = (stepEdited dest p c1 fs1).1.copied_edited := hopres1.2.1
      have e2 : (stepOrig dest p (stepEdited dest p c1 fs1).1
            (stepEdited dest p c1 fs1).2).1.existing_edited
          = (stepEdited dest p c1 fs1).1.existing_edited := hopres1.2.2.2
      have e3 : (stepOrig dest p (stepEdited dest p c2 fs2).1 fs2).1.copied_edited
          = (stepEdited dest p c2 fs2).1.copied_edited := hopres2.2.1
      have e4 : (stepOrig dest p (stepEdited dest p c2 fs2).1 fs2).1.existing_edited
          = (stepEdited dest p c2 fs2).1.existing_edited := hopres2.2.2.2
      omega

theorem runPhotos_twice_aux (dest : String) (dnames : List String) :
    ∀ (ps : List Photo) (c1 c2 : Counters) (fs1 fs2 : List String),
    (∀ p ∈ ps, destOrig dest p ∈ dnames ∧ destEdit dest p ∈ dnames) →
    (∀ p ∈ ps, p.path ∉ dnames ∧ p.path_edited ∉ dnames) →
    fs1 ⊆ fs2 →
    (runPhotos dest ps (c1, fs1)).2 ⊆ fs2 →
    (∀ p ∈ ps, (p.path ∈ fs2 ↔ p.path ∈ fs1)
        ∧ (p.path_edited ∈ fs2 ↔ p.path_edited ∈ fs1)) →
    (runPhotos dest ps (c2, fs2)).1.copied = c2.copied ∧
    (runPhotos dest ps (c2, fs2)).1.copied_edited = c2.copied_edited ∧
    c2.existing + (runPhotos dest ps (c1, fs1)).1.copied
        + (runPhotos dest ps (c1, fs1)).1.existing
      ≤ (runPhotos dest ps (c2, fs2)).1.existing + c1.copied + c1.existing ∧
    c2.existing_edited + (runPhotos dest ps (c1, fs1)).1.copied_edited
        + (runPhotos dest ps (c1, fs1)).1.existing_edited
      ≤ (runPhotos dest ps (c2, fs2)).1.existing_edited + c1.copied_edited
          + c1.existing_edited := by
  intro ps
  induction ps with
  | nil =>
    intro c1 c2 fs1 fs2 _ _ _ _ _
    exact ⟨rfl, rfl, le_refl _, le_refl _⟩
  | cons p ps ih =>
    intro c1 c2 fs1 fs2 hd hs hfs hsub hsrc
    have hdp := hd p (List.mem_cons_self p ps)
    have hsrcp := hsrc p (List.mem_cons_self p ps)
    have hrw1 : runPhotos dest (p :: ps) (c1, fs1)
        = runPhotos dest ps (stepPhoto dest p (c1, fs1)) := rfl
    have hrw2 : runPhotos dest (p :: ps) (c2, fs2)
        = runPhotos dest ps (stepPhoto dest p (c2, fs2)) := rfl
    rw [hrw1] at hsub
    rw [hrw1, hrw2]
    have hstep1 : (stepPhoto dest p (c1, fs1)).2 ⊆ fs2 :=
      fun x hx => hsub (runPhotos_fs_mono hx)
    have hstw := step_twice dest p c1 c2 fs1 fs2 hfs hstep1 hsrcp.1 hsrcp.2
    have hfs' : (stepPhoto dest p (c1, fs1)).2 ⊆ (stepPhoto dest p (c2, fs2)).2 :=
      fun x hx => stepPhoto_fs_mono (hstep1 hx)
    have hsub' : (runPhotos dest ps (stepPhoto dest p (c1, fs1))).2
        ⊆ (stepPhoto dest p (c2, fs2)).2 :=
      fun x hx => stepPhoto_fs_mono (hsub hx)
    have hsrc' : ∀ q ∈ ps,
        (q.path ∈ (stepPhoto dest p (c2, fs2)).2 ↔ q.path ∈ (stepPhoto dest p (c1, fs1)).2)
        ∧ (q.path_edited ∈ (stepPhoto dest p (c2, fs2)).2
            ↔ q.path_edited ∈ (stepPhoto dest p (c1, fs1)).2) := by
      intro q hq
      have hsq := hs q (List.mem_cons_of_mem p hq)
      have hsrcq := hsrc q (List.mem_cons_of_mem p hq)
      have hne1 : q.path ≠ destEdit dest p := fun h => hsq.1 (by rw [h]; exact hdp.2)
      have hne2 : q.path ≠ destOrig dest p := fun h => hsq.1 (by rw [h]; exact hdp.1)
      have hne3 : q.path_edited ≠ destEdit dest p := fun h => hsq.2 (by rw [h]; exact hdp.2)
      have hne4 : q.path_edited ≠ destOrig dest p := fun h => hsq.2 (by rw [h]; exact hdp.1)
      constructor
      · rw [@step_fs_pres dest p c2 fs2 _ hne1 hne2,
          @step_fs_pres dest p c1 fs1 _ hne1 hne2]
        exact hsrcq.1
      · rw [@step_fs_pres dest p c2 fs2 _ hne3 hne4,
          @step_fs_pres dest p c1 fs1 _ hne3 hne4]
        exact hsrcq.2
    have hrec := ih (stepPhoto dest p (c1, fs1)).1 (stepPhoto dest p (c2, fs2)).1
      (stepPhoto dest p (c1, fs1)).2 (stepPhoto dest p (c2, fs2)).2
      (fun q hq => hd q (List.mem_cons_of_mem p hq))
      (fun q hq => hs q (List.mem_cons_of_mem p hq))
      hfs' hsub' hsrc'
    have hpair1 : ((stepPhoto dest p (c1, fs1)).1, (stepPhoto dest p (c1, fs1)).2)
        = stepPhoto dest p (c1, fs1) := rfl
    have hpair2 : ((stepPhoto dest p (c2, fs2)).1, (stepPhoto dest p (c2, fs2)).2)
        = stepPhoto dest p (c2, fs2) := rfl
    rw [hpair1, hpair2] at hrec
    obtain ⟨hr1, hr2, hr3, hr4⟩ := hrec
    obtain ⟨ht1, ht2, ht3, ht4⟩ := hstw
    refine ⟨hr1.trans ht1, hr2.trans ht2, ?_, ?_⟩
    · omega
    · omega

theorem stepPhoto_fs_len (dest : String) (p : Photo) (c : Counters) (fs : List String) :
    (stepPhoto dest p (c, fs)).2.length + c.copied + c.copied_edited
      = fs.length + (stepPhoto dest p (c, fs)).1.copied
          + (stepPhoto dest p (c, fs)).1.copied_edited := by
  by_cases hm : p.ismissing = true
  · rw [stepPhoto_missing hm]
  · rw [Bool.not_eq_true] at hm
    rw [stepPhoto_not_missing hm]
    have hedit : (stepEdited dest p c fs).2.length + c.copied_edited
          = fs.length + (stepEdited dest p c fs).1.copied_edited ∧
        (stepEdited dest p c fs).1.copied = c.copied := by
      by_cases he : editedApplies p = true
      · by_cases h1 : destEdit dest p ∈ fs
        · rw [stepEdited_existing he h1]; exact ⟨rfl, rfl⟩
        · by_cases h2 : p.path_edited ∈ fs
          · rw [stepEdited_copied he h1 h2]; constructor
            · simp; omega
            · rfl
          · rw [stepEdited_errors he h1 h2]; exact ⟨rfl, rfl⟩
      · rw [Bool.not_eq_true] at he
        rw [stepEdited_not_applies he]; exact ⟨rfl, rfl⟩
    have horig : (stepOrig dest p (stepEdited dest p c fs).1 (stepEdited dest p c fs).2).2.length
          + (stepEdited dest p c fs).1.copied
        = (stepEdited dest p c fs).2.length
          + (stepOrig dest p (stepEdited dest p c fs).1 (stepEdited dest p c fs).2).1.copied ∧
        (stepOrig dest p (stepEdited dest p c fs).1
            (stepEdited dest p c fs).2).1.copied_edited
          = (stepEdited dest p c fs).1.copied_edited := by
      by_cases h1 : destOrig dest p ∈ (stepEdited dest p c fs).2
      · rw [stepOrig_existing h1]; exact ⟨rfl, rfl⟩
      · by_cases h2 : p.path ∈ (stepEdited dest p c fs).2
        · rw [stepOrig_copied h1 h2]; constructor
          · simp; omega
          · rfl
        · rw [stepOrig_errors h1 h2]; exact ⟨rfl, rfl⟩
    omega

theorem runPhotos_fs_len (dest : String) (ps : List Photo) (c : Counters) (fs : List String) :
    (runPhotos dest ps (c, fs)).2.length + c.copied + c.copied_edited
      = fs.length + (runPhotos dest ps (c, fs)).1.copied
          + (runPhotos dest ps (c, fs)).1.copied_edited := by
  induction ps generalizing c fs with
  | nil => rfl
  | cons p ps ih =>
    have hstep := stepPhoto_fs_len dest p c fs
    have hrec := ih (stepPhoto dest p (c, fs)).1 (stepPhoto dest p (c, fs)).2
    rw [show runPhotos dest (p :: ps) (c, fs) = runPhotos dest ps (stepPhoto dest p (c, fs))
        from rfl]
    rw [show ((stepPhoto dest p (c, fs)).1, (stepPhoto dest p (c, fs)).2)
          = stepPhoto dest p (c, fs) from rfl] at hrec
    omega

theorem stepPhoto_fs_append (dest : String) (p : Photo) (c : Counters) (fs : List String) :
    ∃ t, (stepPhoto dest p (c, fs)).2 = fs ++ t := by
  by_cases hm : p.ismissing = true
  · exact ⟨[], by rw [stepPhoto_missing hm, List.append_nil]⟩
  · rw [Bool.not_eq_true] at hm
    rw [stepPhoto_not_missing hm]
    rcases stepOrig_fs_shape dest p (stepEdited dest p c fs).1 (stepEdited dest p c fs).2
        with h2 | h2 <;>
      rcases stepEdited_fs_shape dest p c fs with h1 | h1
    · exact ⟨[], by rw [h2, h1, List.append_nil]⟩
    · exact ⟨[destEdit dest p], by rw [h2, h1]⟩
    · exact ⟨[destOrig dest p], by rw [h2, h1]⟩
    · exact ⟨[destEdit dest p] ++ [destOrig dest p], by rw [h2, h1, List.append_assoc]⟩

theorem runPhotos_fs_append (dest : String) (ps : List Photo) (c : Counters) (fs : List String) :
    ∃ t, (runPhotos dest ps (c, fs)).2 = fs ++ t := by
  induction ps generalizing c fs with
  | nil => exact ⟨[], (List.append_nil fs).symm⟩
  | cons p ps ih =>
    obtain ⟨t0, h0⟩ := stepPhoto_fs_append dest p c fs
    obtain ⟨t1, h1⟩ := ih (stepPhoto dest p (c, fs)).1 (stepPhoto dest p (c, fs)).2
    refine ⟨t0 ++ t1, ?_⟩
    rw [show runPhotos dest (p :: ps) (c, fs) = runPhotos dest ps (stepPhoto dest p (c, fs))
        from rfl]
    rw [show ((stepPhoto dest p (c, fs)).1, (stepPhoto dest p (c, fs)).2)
          = stepPhoto dest p (c, fs) from rfl] at h1
    rw [h1, h0, List.append_assoc]


/-! ### Running the whole export twice -/

theorem albumStep_files (sanitize : String → String) (photosOf : String → List Photo)
    (root a : String) (fs : FS) :
    (albumStep sanitize photosOf root a fs).2.files
      = (runPhotos (destDirOf sanitize root a) (photosOf a) (Counters.zero, fs.files)).2 := rfl

theorem albumStep_counters (sanitize : String → String) (photosOf : String → List Photo)
    (root a : String) (fs : FS) :
    (albumStep sanitize photosOf root a fs).1
      = (runPhotos (destDirOf sanitize root a) (photosOf a) (Counters.zero, fs.files)).1 := rfl

theorem albumStep_dirs (sanitize : String → String) (photosOf : String → List Photo)
    (root a : String) (fs : FS) :
    (albumStep sanitize photosOf root a fs).2.dirs
      = if destDirOf sanitize root a ∈ fs.dirs then fs.dirs
        else fs.dirs ++ [destDirOf sanitize root a] := rfl

theorem FS.eq_of_parts {x y : FS} (hf : x.files = y.files) (hd : x.dirs = y.dirs) : x = y := by
  cases x
  cases y
  simp only [FS.mk.injEq]
  exact ⟨hf, hd⟩

theorem runAlbums_cons_valid (valid : String → Bool) (sanitize : String → String)
    (photosOf : String → List Photo) (root a : String) (as : List String) (fs : FS)
    (hv : valid (destDirOf sanitize root a) = true) :
    runAlbums valid sanitize photosOf root (a :: as) fs
      = ((runAlbums valid sanitize photosOf root as (albumStep sanitize photosOf root a fs).2).1,
          (a, (albumStep sanitize photosOf root a fs).1)
            :: (runAlbums valid sanitize photosOf root as
                (albumStep sanitize photosOf root a fs).2).2.1,
          (runAlbums valid sanitize photosOf root as
              (albumStep sanitize photosOf root a fs).2).2.2) := by
  simp only [runAlbums, hv]
  rw [if_neg (by simp)]

theorem runAlbums_cons_valid_exit (valid : String → Bool) (sanitize : String → String)
    (photosOf : String → List Photo) (root a : String) (as : List String) (fs : FS)
    (hv : valid (destDirOf sanitize root a) = true) :
    (runAlbums valid sanitize photosOf root (a :: as) fs).1
      = (runAlbums valid sanitize photosOf root as (albumStep sanitize photosOf root a fs).2).1
    := by
  rw [runAlbums_cons_valid valid sanitize photosOf root a as fs hv]

theorem runAlbums_cons_valid_sums (valid : String → Bool) (sanitize : String → String)
    (photosOf : String → List Photo) (root a : String) (as : List String) (fs : FS)
    (hv : valid (destDirOf sanitize root a) = true) :
    (runAlbums valid sanitize photosOf root (a :: as) fs).2.1
      = (a, (albumStep sanitize photosOf root a fs).1)
          :: (runAlbums valid sanitize photosOf root as
              (albumStep sanitize photosOf root a fs).2).2.1 := by
  rw [runAlbums_cons_valid valid sanitize photosOf root a as fs hv]

theorem runAlbums_cons_valid_fs (valid : String → Bool) (sanitize : String → String)
    (photosOf : String → List Photo) (root a : String) (as : List String) (fs : FS)
    (hv : valid (destDirOf sanitize root a) = true) :
    (runAlbums valid sanitize photosOf root (a :: as) fs).2.2
      = (runAlbums valid sanitize photosOf root as
          (albumStep sanitize photosOf root a fs).2).2.2 := by
  rw [runAlbums_cons_valid valid sanitize photosOf root a as fs hv]

theorem runAlbums_files_mono (valid : String → Bool) (sanitize : String → String)
    (photosOf : String → List Photo) (root : String) :
    ∀ (as : List String) (fs : FS),
      fs.files ⊆ (runAlbums valid sanitize photosOf root as fs).2.2.files := by
  intro as
  induction as with
  | nil => intro fs x hx; exact hx
  | cons a as ih =>
    intro fs x hx
    by_cases hv : valid (destDirOf sanitize root a) = true
    · rw [runAlbums_cons_valid_fs valid sanitize photosOf root a as fs hv]
      apply ih
      rw [albumStep_files]
      exact runPhotos_fs_mono hx
    · rw [Bool.not_eq_true] at hv
      simp [runAlbums, hv]
      exact hx

theorem runAlbums_files_new (valid : String → Bool) (sanitize : String → String)
    (photosOf : String → List Photo) (root : String) :
    ∀ (as : List String) (fs : FS) (x : String),
      x ∈ (runAlbums valid sanitize photosOf root as fs).2.2.files →
      x ∈ fs.files ∨ x ∈ allDestNames sanitize photosOf root as := by
  intro as
  induction as with
  | nil => intro fs x hx; exact Or.inl hx
  | cons a as ih =>
    intro fs x hx
    by_cases hv : valid (destDirOf sanitize root a) = true
    · rw [runAlbums_cons_valid_fs valid sanitize photosOf root a as fs hv] at hx
      rcases ih _ x hx with h | h
      · rw [albumStep_files] at h
        rcases runPhotos_fs_new x h with h' | ⟨p, hp, h' | h'⟩
        · exact Or.inl h'
        · refine Or.inr ?_
          unfold allDestNames
          rw [List.mem_bind]
          refine ⟨a, List.mem_cons_self a as, ?_⟩
          exact List.mem_append_right _ (List.mem_map.mpr ⟨p, hp, h'.symm⟩)
        · refine Or.inr ?_
          unfold allDestNames
          rw [List.mem_bind]
          refine ⟨a, List.mem_cons_self a as, ?_⟩
          exact List.mem_append_left _ (List.mem_map.mpr ⟨p, hp, h'.symm⟩)
      · refine Or.inr ?_
        unfold allDestNames at h ⊢
        rw [List.mem_bind] at h ⊢
        obtain ⟨b, hb, hxb⟩ := h
        exact ⟨b, List.mem_cons_of_mem a hb, hxb⟩
    · rw [Bool.not_eq_true] at hv
      simp [runAlbums, hv] at hx
      exact Or.inl hx

theorem runAlbums_exit_none (valid : String → Bool) (sanitize : String → String)
    (photosOf : String → List Photo) (root : String) :
    ∀ (as : List String) (fs : FS),
      (∀ a ∈ as, valid (destDirOf sanitize root a) = true) →
      (runAlbums valid sanitize photosOf root as fs).1 = none := by
  intro as
  induction as with
  | nil => intro fs _; rfl
  | cons a as ih =>
    intro fs hval
    have hv := hval a (List.mem_cons_self a as)
    rw [runAlbums_cons_valid_exit valid sanitize photosOf root a as fs hv]
    exact ih _ (fun b hb => hval b (List.mem_cons_of_mem a hb))

theorem runPhotos_fs_fixed (dest : String) (ps : List Photo) (c : Counters) (fs : List String)
    (h1 : (runPhotos dest ps (c, fs)).1.copied = c.copied)
    (h2 : (runPhotos dest ps (c, fs)).1.copied_edited = c.copied_edited) :
    (runPhotos dest ps (c, fs)).2 = fs := by
  obtain ⟨t, ht⟩ := runPhotos_fs_append dest ps c fs
  have hlen := runPhotos_fs_len dest ps c fs
  have htlen : t.length = 0 := by
    rw [ht, List.length_append] at hlen
    omega
  rw [ht, List.length_eq_zero.mp htlen, List.append_nil]

theorem runAlbums_twice_aux (valid : String → Bool) (sanitize : String → String)
    (photosOf : String → List Photo) (root : String) (N : List String) :
    ∀ (as : List String) (fs1 fs2 : FS),
    (∀ a ∈ as, valid (destDirOf sanitize root a) = true) →
    (∀ a ∈ as, ∀ p ∈ photosOf a,
        destOrig (destDirOf sanitize root a) p ∈ N
        ∧ destEdit (destDirOf sanitize root a) p ∈ N) →
    (∀ a ∈ as, ∀ p ∈ photosOf a, p.path ∉ N ∧ p.path_edited ∉ N) →
    fs1.files ⊆ fs2.files →
    (runAlbums valid sanitize photosOf root as fs1).2.2.files ⊆ fs2.files →
    (∀ a ∈ as, ∀ p ∈ photosOf a,
        (p.path ∈ fs2.files ↔ p.path ∈ fs1.files)
        ∧ (p.path_edited ∈ fs2.files ↔ p.path_edited ∈ fs1.files)) →
    (∀ a ∈ as, destDirOf sanitize root a ∈ fs2.dirs) →
    (runAlbums valid sanitize photosOf root as fs2).1 = none ∧
    (runAlbums valid sanitize photosOf root as fs2).2.2 = fs2 ∧
    List.Forall₂
      (fun s1 s2 : String × Counters =>
        s1.1 = s2.1 ∧ s2.2.copied = 0 ∧ s2.2.copied_edited = 0 ∧
        s1.2.copied + s1.2.existing ≤ s2.2.existing ∧
        s1.2.copied_edited + s1.2.existing_edited ≤ s2.2.existing_edited)
      (runAlbums valid sanitize photosOf root as fs1).2.1
      (runAlbums valid sanitize photosOf root as fs2).2.1 := by
  intro as
  induction as with
  | nil =>
    intro fs1 fs2 _ _ _ _ _ _ _
    exact ⟨rfl, rfl, List.Forall₂.nil⟩
  | cons a as ih =>
    intro fs1 fs2 hval hd hs hfs hsub hsrc hdir
    have hva := hval a (List.mem_cons_self a as)
    have hda := hd a (List.mem_cons_self a as)
    have hsa := hs a (List.mem_cons_self a as)
    have hsrca := hsrc a (List.mem_cons_self a as)
    have hdira := hdir a (List.mem_cons_self a as)
    rw [runAlbums_cons_valid_fs valid sanitize photosOf root a as fs1 hva] at hsub
    have hsubA : (runPhotos (destDirOf sanitize root a) (photosOf a)
        (Counters.zero, fs1.files)).2 ⊆ fs2.files := by
      intro x hx
      apply hsub
      apply runAlbums_files_mono
      rw [albumStep_files]
      exact hx
    have haux := runPhotos_twice_aux (destDirOf sanitize root a) N (photosOf a)
      Counters.zero Counters.zero fs1.files fs2.files hda hsa hfs hsubA hsrca
    obtain ⟨hc2, hce2, hex, hexe⟩ := haux
    have hfix2 : (runPhotos (destDirOf sanitize root a) (photosOf a)
        (Counters.zero, fs2.files)).2 = fs2.files :=
      runPhotos_fs_fixed _ _ _ _ hc2 hce2
    have hstep2 : (albumStep sanitize photosOf root a fs2).2 = fs2 := by
      apply FS.eq_of_parts
      · rw [albumStep_files]
        exact hfix2
      · rw [albumStep_dirs]
        rw [if_pos hdira]
    have hfs' : (albumStep sanitize photosOf root a fs1).2.files ⊆ fs2.files := by
      intro x hx
      apply hsub
      exact runAlbums_files_mono valid sanitize photosOf root as _ hx
    have hiffA : ∀ q : String, q ∉ N →
        (q ∈ (albumStep sanitize photosOf root a fs1).2.files ↔ q ∈ fs1.files) := by
      intro q hqN
      rw [albumStep_files]
      constructor
      · intro hx
        rcases runPhotos_fs_new q hx with h' | ⟨w, hw, h' | h'⟩
        · exact h'
        · exact absurd (by rw [h']; exact (hda w hw).2) hqN
        · exact absurd (by rw [h']; exact (hda w hw).1) hqN
      · exact fun hx => runPhotos_fs_mono hx
    have hsrc' : ∀ b ∈ as, ∀ p ∈ photosOf b,
        (p.path ∈ fs2.files ↔ p.path ∈ (albumStep sanitize photosOf root a fs1).2.files)
        ∧ (p.path_edited ∈ fs2.files
            ↔ p.path_edited ∈ (albumStep sanitize photosOf root a fs1).2.files) := by
      intro b hb p hp
      have hpq := hsrc b (List.mem_cons_of_mem a hb) p hp
      have hnotN := hs b (List.mem_cons_of_mem a hb) p hp
      exact ⟨hpq.1.trans (hiffA p.path hnotN.1).symm,
        hpq.2.trans (hiffA p.path_edited hnotN.2).symm⟩
    have hrec := ih (albumStep sanitize photosOf root a fs1).2 fs2
      (fun b hb => hval b (List.mem_cons_of_mem a hb))
      (fun b hb => hd b (List.mem_cons_of_mem a hb))
      (fun b hb => hs b (List.mem_cons_of_mem a hb))
      hfs' hsub hsrc'
      (fun b hb => hdir b (List.mem_cons_of_mem a hb))
    refine ⟨?_, ?_, ?_⟩
    · rw [runAlbums_cons_valid_exit valid sanitize photosOf root a as fs2 hva, hstep2]
      exact hrec.1
    · rw [runAlbums_cons_valid_fs valid sanitize photosOf root a as fs2 hva, hstep2]
      exact hrec.2.1
    · rw [runAlbums_cons_valid_sums valid sanitize photosOf root a as fs1 hva,
        runAlbums_cons_valid_sums valid sanitize photosOf root a as fs2 hva, hstep2]
      refine List.Forall₂.cons ?_ hrec.2.2
      refine ⟨rfl, ?_, ?_, ?_, ?_⟩
      · show (albumStep sanitize photosOf root a fs2).1.copied = 0
        rw [albumStep_counters]
        exact hc2
      · show (albumStep sanitize photosOf root a fs2).1.copied_edited = 0
        rw [albumStep_counters]
        exact hce2
      · show (albumStep sanitize photosOf root a fs1).1.copied
              + (albumStep sanitize photosOf root a fs1).1.existing
            ≤ (albumStep sanitize photosOf root a fs2).1.existing
        simp only [albumStep_counters]
        have hz : Counters.zero.copied = 0 ∧ Counters.zero.existing = 0 := ⟨rfl, rfl⟩
        omega
      · show (albumStep sanitize photosOf root a fs1).1.copied_edited
              + (albumStep sanitize photosOf root a fs1).1.existing_edited
            ≤ (albumStep sanitize photosOf root a fs2).1.existing_edited
        simp only [albumStep_counters]
        have hz : Counters.zero.copied_edited = 0 ∧ Counters.zero.existing_edited = 0 :=
          ⟨rfl, rfl⟩
        omega

/-- Claim C2: running the whole export twice with the same library state
against the same destination is idempotent.  Provided every selected album's
destination path validates and no photo's library source path coincides with
any destination filename the export can write (true of any real library/export
root pair), the first run completes, the second run completes, changes neither
the files nor the directories of the filesystem — so no additional copies
occur — and, album by album, its summary counts zero copied photos (original
and edited), the photos copied or existing in the first run all being absorbed
into the existing counters. -/
theorem export_idempotent (valid : String → Bool) (sanitize : String → String)
    (photosOf : String → List Photo) (r : RegularExpression Char) (root : String)
    (albums : List String) (fs0 : FS)
    (hval : ∀ a ∈ processedAlbums r albums, valid (destDirOf sanitize root a) = true)
    (hdis : ∀ a ∈ processedAlbums r albums, ∀ p ∈ photosOf a,
        p.path ∉ allDestNames sanitize photosOf root (processedAlbums r albums)
        ∧ p.path_edited ∉ allDestNames sanitize photosOf root (processedAlbums r albums)) :
    (runExport valid sanitize photosOf r root albums fs0).1 = none ∧
    (runExport valid sanitize photosOf r root albums
        (runExport valid sanitize photosOf r root albums fs0).2.2).1 = none ∧
    (runExport valid sanitize photosOf r root albums
        (runExport valid sanitize photosOf r root albums fs0).2.2).2.2
      = (runExport valid sanitize photosOf r root albums fs0).2.2 ∧
    List.Forall₂
      (fun s1 s2 : String × Counters =>
        s1.1 = s2.1 ∧ s2.2.copied = 0 ∧ s2.2.copied_edited = 0 ∧
        s1.2.copied + s1.2.existing ≤ s2.2.existing ∧
        s1.2.copied_edited + s1.2.existing_edited ≤ s2.2.existing_edited)
      (runExport valid sanitize photosOf r root albums fs0).2.1
      (runExport valid sanitize photosOf r root albums
        (runExport valid sanitize photosOf r root albums fs0).2.2).2.1 := by
  unfold runExport
  have hN : ∀ a ∈ processedAlbums r albums, ∀ p ∈ photosOf a,
      destOrig (destDirOf sanitize root a) p
          ∈ allDestNames sanitize photosOf root (processedAlbums r albums)
      ∧ destEdit (destDirOf sanitize root a) p
          ∈ allDestNames sanitize photosOf root (processedAlbums r albums) := by
    intro a ha p hp
    constructor
    · unfold allDestNames
      rw [List.mem_bind]
      exact ⟨a, ha, List.mem_append_left _
        (List.mem_map.mpr ⟨p, hp, rfl⟩)⟩
    · unfold allDestNames
      rw [List.mem_bind]
      exact ⟨a, ha, List.mem_append_right _
        (List.mem_map.mpr ⟨p, hp, rfl⟩)⟩
  have hfs : fs0.files ⊆ (runAlbums valid sanitize photosOf root
      (processedAlbums r albums) fs0).2.2.files :=
    runAlbums_files_mono valid sanitize photosOf root (processedAlbums r albums) fs0
  have hsub : (runAlbums valid sanitize photosOf root
        (processedAlbums r albums) fs0).2.2.files
      ⊆ (runAlbums valid sanitize photosOf root
        (processedAlbums r albums) fs0).2.2.files := fun x hx => hx
  have hsrc : ∀ a ∈ processedAlbums r albums, ∀ p ∈ photosOf a,
      (p.path ∈ (runAlbums valid sanitize photosOf root
            (processedAlbums r albums) fs0).2.2.files ↔ p.path ∈ fs0.files)
      ∧ (p.path_edited ∈ (runAlbums valid sanitize photosOf root
            (processedAlbums r albums) fs0).2.2.files ↔ p.path_edited ∈ fs0.files) := by
    intro a ha p hp
    have hnot := hdis a ha p hp
    constructor
    · constructor
      · intro hx
        rcases runAlbums_files_new valid sanitize photosOf root
            (processedAlbums r albums) fs0 p.path hx with h | h
        · exact h
        · exact absurd h hnot.1
      · exact fun hx =>
          runAlbums_files_mono valid sanitize photosOf root (processedAlbums r albums) fs0 hx
    · constructor
      · intro hx
        rcases runAlbums_files_new valid sanitize photosOf root
            (processedAlbums r albums) fs0 p.path_edited hx with h | h
        · exact h
        · exact absurd h hnot.2
      · exact fun hx =>
          runAlbums_files_mono valid sanitize photosOf root (processedAlbums r albums) fs0 hx
  have hdir : ∀ a ∈ processedAlbums r albums,
      destDirOf sanitize root a ∈ (runAlbums valid sanitize photosOf root
        (processedAlbums r albums) fs0).2.2.dirs := by
    intro a ha
    exact (runAlbums_dirs valid sanitize photosOf root (processedAlbums r albums) fs0 hval
      (destDirOf sanitize root a)).2 (Or.inr ⟨a, ha, rfl⟩)
  have hexit1 : (runAlbums valid sanitize photosOf root
      (processedAlbums r albums) fs0).1 = none :=
    runAlbums_exit_none valid sanitize photosOf root (processedAlbums r albums) fs0 hval
  have haux := runAlbums_twice_aux valid sanitize photosOf root
    (allDestNames sanitize photosOf root (processedAlbums r albums))
    (processedAlbums r albums) fs0
    (runAlbums valid sanitize photosOf root (processedAlbums r albums) fs0).2.2
    hval hN hdis hfs hsub hsrc hdir
  exact ⟨hexit1, haux.1, haux.2.1, haux.2.2⟩

/-- Witness for `export_idempotent`: one album with one photo whose source
file exists; the second full export changes nothing. -/
theorem export_idempotent_witness :
    (runExport (fun _ => true) id
        (fun _ => [⟨"a.jpg", "a.jpg", "/lib/a.jpg", "", false, false⟩])
        (RegularExpression.char 'T') "/out" ["T"]
        (runExport (fun _ => true) id
          (fun _ => [⟨"a.jpg", "a.jpg", "/lib/a.jpg", "", false, false⟩])
          (RegularExpression.char 'T') "/out" ["T"] ⟨["/lib/a.jpg"], []⟩).2.2).2.2
      = (runExport (fun _ => true) id
          (fun _ => [⟨"a.jpg", "a.jpg", "/lib/a.jpg", "", false, false⟩])
          (RegularExpression.char 'T') "/out" ["T"] ⟨["/lib/a.jpg"], []⟩).2.2 :=
  (export_idempotent (fun _ => true) id
    (fun _ => [⟨"a.jpg", "a.jpg", "/lib/a.jpg", "", false, false⟩])
    (RegularExpression.char 'T') "/out" ["T"] ⟨["/lib/a.jpg"], []⟩
    (fun _ _ => rfl) (by decide)).2.2.1
